import Mathlib

/-!
Verification of the KernelPCA reconstruction-error anomaly detector
(`recon_error_kpca.py`).  The pipeline standardizes a numeric matrix,
sweeps a kernel decomposition over every component count, aggregates
weighted reconstruction errors into per-row anomaly scores, and flags
the top fraction of rows given by a contamination rate.

Modelling conventions:
* matrices are lists of rows over `ℚ` (numpy float arrays modelled by
  exact rationals);
* the external collaborators (`StandardScaler`, `KernelPCA`) are
  abstracted: the pipeline state holds the already-standardized matrix,
  and a `KPCAOracle` provides the eigenvalues of the full-rank fit and
  the reconstruction `inverse_transform(fit_transform(X))` for each
  requested component count;
* `np.random.choice(range(col), size=2, replace=False)` draws from
  numpy's global generator; the drawn pair is passed in as two explicit
  arguments `i j` (a valid draw has `i ≠ j`, `i < col`, `j < col`, and
  the draw raises `ValueError` when `col < 2`);
* Python `assert` failures and numpy `ValueError`s are modelled by
  `Except.error`;
* `np.argsort` (default `kind='quicksort'`) guarantees only that the
  result sorts the array; the model instantiates the tie order with the
  stable choice (earlier index first on equal keys).
-/

/-- A real matrix, as a list of rows of rationals. -/
abbrev Mat : Type := List (List ℚ)

/-- numpy `a.shape[1]` for a 2-D array: the common length of the rows
(read off the first row; numpy arrays are rectangular). -/
def matWidth (m : Mat) : ℕ := m.headI.length

/-- numpy shape equality `a.shape == b.shape` for the rectangular arrays the
pipeline handles: same list of row lengths. -/
def sameShape (a b : Mat) : Prop := a.map List.length = b.map List.length

instance (a b : Mat) : Decidable (sameShape a b) := by
  unfold sameShape
  exact inferInstance

/-- numpy `np.cumsum` on a 1-D array: running partial sums. -/
def cumsum : List ℚ → List ℚ
  | [] => []
  | x :: xs => x :: (cumsum xs).map (fun y => x + y)

/-- Python slicing `l[:m]` with a possibly negative bound `m`:
a negative bound counts from the end of the list. -/
def sliceTo (l : List ℕ) (m : ℤ) : List ℕ :=
  if 0 ≤ m then l.take m.toNat else l.take ((l.length : ℤ) + m).toNat

/-- Stable insertion of index `i` into an index list already sorted by
ascending key `s`: `i` goes in front of the first index with a strictly
larger key, hence after every earlier index with an equal key. -/
noncomputable def argInsert (s : List ℝ) (i : ℕ) : List ℕ → List ℕ
  | [] => [i]
  | j :: rest =>
      if s.getD i 0 < s.getD j 0 then i :: j :: rest else j :: argInsert s i rest

/-- numpy `np.argsort(s)`: indices that sort `s` ascending.  The default
`kind='quicksort'` only guarantees a sorting permutation; this model fixes
the tie order to the stable one (earlier index first). -/
noncomputable def np_argsort (s : List ℝ) : List ℕ :=
  (List.range s.length).foldl (fun acc i => argInsert s i acc) []

/-- numpy `np.sum(vs, axis=0)` on a nonempty list of equal-length 1-D
arrays: the element-wise sum.  (The pipeline only reaches this with at
least one vector in the list.) -/
def np_sum_axis0 : List (List ℝ) → List ℝ
  | [] => []
  | [v] => v
  | v :: w :: vs => List.zipWith (fun a b => a + b) v (np_sum_axis0 (w :: vs))

/-- State of a `KPCA_Recon_Error` instance after `__init__`:
`matrix` is `StandardScaler().fit_transform(raw_matrix)` (the
standardization itself is the external collaborator), and the remaining
constructor arguments are stored unchanged.  The constructor performs no
validation of any argument. -/
structure KPCA_Recon_Error where
  matrix : Mat
  contamination : ℚ
  kernel : String
  gamma : Option ℚ
  random_state : ℤ

/-- External collaborator `sklearn.decomposition.KernelPCA`, fitted on the
standardized matrix with the stored kernel, gamma and random_state:
`lambdas` is `transformer.lambdas_` of the full-rank fit
(`n_components=None`; sklearn keeps the nonzero eigenvalues of the
centered kernel matrix, sorted descending — their number is in general
not the number of features), and `recon k` is
`transformer.inverse_transform(transformer.fit_transform(X))` for the fit
with `n_components=k`. -/
structure KPCAOracle where
  lambdas : List ℚ
  recon : ℕ → Mat

namespace KPCA_Recon_Error

/-- Method `get_ev_ratio`: `np.cumsum(transformer.lambdas_) /
np.sum(transformer.lambdas_)`, the cumulative eigenvalue proportions of
the full-rank fit. -/
def get_ev_ratio (o : KPCAOracle) : List ℚ :=
  (cumsum o.lambdas).map (fun x => x / o.lambdas.sum)

/-- Inner function `reconstruct(recon_pc_num)` of `reconstruct_matrix`:
the reconstruction from the top `recon_pc_num` components, with the
shape assertion `recon_matrix.shape == self.matrix.shape`. -/
def reconstruct (cfg : KPCA_Recon_Error) (o : KPCAOracle) (recon_pc_num : ℕ) :
    Except String Mat :=
  let recon_matrix := o.recon recon_pc_num
  if sameShape recon_matrix cfg.matrix then Except.ok recon_matrix
  else Except.error "AssertionError: reconstruction matrix shape differs from the initial matrix"

/-- Method `reconstruct_matrix`: builds `[reconstruct(k) for k in
range(1, col+1)]`, then draws two indices `i j` from numpy's global
generator (`ValueError` when `col < 2`) and asserts that the two drawn
reconstruction matrices are not element-wise identical. -/
def reconstruct_matrix (cfg : KPCA_Recon_Error) (o : KPCAOracle) (i j : ℕ) :
    Except String (List Mat) :=
  match (List.range (matWidth cfg.matrix)).mapM (fun t => reconstruct cfg o (t + 1)) with
  | Except.error e => Except.error e
  | Except.ok recon_matrices =>
      if matWidth cfg.matrix < 2 then
        Except.error "ValueError: cannot take a larger sample than population when replace is False"
      else if recon_matrices.getD i [] = recon_matrices.getD j [] then
        Except.error "AssertionError: the two sampled reconstruction matrices coincide"
      else Except.ok recon_matrices

/-- Inner function `compute_vector_length` of `get_anomaly_score`:
`np.sqrt(np.square(vector).sum())`, the Euclidean norm of a row. -/
noncomputable def compute_vector_length (vector : List ℚ) : ℝ :=
  Real.sqrt (((vector.map (fun x => x ^ 2)).sum : ℚ) : ℝ)

/-- Inner function `compute_sub_score` of `get_anomaly_score`: per-row
Euclidean norms of `self.matrix - recon_matrix`, each multiplied by the
scalar weight `ev`. -/
noncomputable def compute_sub_score (matrix : Mat) (recon_matrix : Mat) (ev : ℚ) : List ℝ :=
  let delta_matrix := List.zipWith (fun r s => List.zipWith (fun a b => a - b) r s) matrix recon_matrix
  delta_matrix.map (fun row => compute_vector_length row * (ev : ℝ))

/-- Method `get_anomaly_score`:
`list(map(compute_sub_score, reconstruct_matrices, ev_ratio))` (Python's
two-iterable `map` stops at the shorter sequence, hence `zipWith`)
summed element-wise with `np.sum(..., axis=0)`. -/
noncomputable def get_anomaly_score (cfg : KPCA_Recon_Error) (o : KPCAOracle) (i j : ℕ) :
    Except String (List ℝ) :=
  match reconstruct_matrix cfg o i j with
  | Except.error e => Except.error e
  | Except.ok reconstruct_matrices =>
      Except.ok (np_sum_axis0 (List.zipWith
        (fun m ev => compute_sub_score cfg.matrix m ev)
        reconstruct_matrices (get_ev_ratio o)))

/-- Method `get_anomaly_indices`: `np.argsort(-scores)` sliced to the
first `int(np.ceil(len(self.matrix) * self.contamination))` entries. -/
noncomputable def get_anomaly_indices (cfg : KPCA_Recon_Error) (o : KPCAOracle) (i j : ℕ) :
    Except String (List ℕ) :=
  match get_anomaly_score cfg o i j with
  | Except.error e => Except.error e
  | Except.ok score =>
      let indices_desc := np_argsort (score.map (fun x => -x))
      let anomaly_num : ℤ := ⌈(cfg.matrix.length : ℚ) * cfg.contamination⌉
      Except.ok (sliceTo indices_desc anomaly_num)

/-- Method `predict`: `[1 if i in anomaly_indices else 0 for i in
range(len(self.matrix))]`. -/
noncomputable def predict (cfg : KPCA_Recon_Error) (o : KPCAOracle) (i j : ℕ) :
    Except String (List ℕ) :=
  match get_anomaly_indices cfg o i j with
  | Except.error e => Except.error e
  | Except.ok anomaly_indices =>
      Except.ok ((List.range cfg.matrix.length).map
        (fun t => if t ∈ anomaly_indices then 1 else 0))

/-- The list of reconstruction matrices the sweep produces when every
assertion passes: one per component count `k = 1..matWidth`. -/
def reconList (cfg : KPCA_Recon_Error) (o : KPCAOracle) : List Mat :=
  (List.range (matWidth cfg.matrix)).map (fun t => o.recon (t + 1))

/-- The anomaly-score vector a successful run computes; it does not
depend on the index pair drawn from numpy's global generator. -/
noncomputable def scoreVal (cfg : KPCA_Recon_Error) (o : KPCAOracle) : List ℝ :=
  np_sum_axis0 (List.zipWith (fun m ev => compute_sub_score cfg.matrix m ev)
    (reconList cfg o) (get_ev_ratio o))

/-- The anomaly-index list a successful run computes. -/
noncomputable def indicesVal (cfg : KPCA_Recon_Error) (o : KPCAOracle) : List ℕ :=
  sliceTo (np_argsort ((scoreVal cfg o).map (fun x => -x)))
    ⌈(cfg.matrix.length : ℚ) * cfg.contamination⌉

/-- The prediction vector a successful run computes. -/
noncomputable def predictVal (cfg : KPCA_Recon_Error) (o : KPCAOracle) : List ℕ :=
  (List.range cfg.matrix.length).map (fun t => if t ∈ indicesVal cfg o then 1 else 0)

end KPCA_Recon_Error

/-- Concrete standardized 2×2 matrix used for witnesses. -/
def exMatrix : Mat := [[0, 0], [0, 1]]

/-- Concrete 1-component reconstruction used for witnesses. -/
def exRecon1 : Mat := [[0, 0], [0, 0]]

/-- Concrete decomposition oracle for `exMatrix`: two eigenvalues,
1-component reconstruction `exRecon1`, full reconstruction exact. -/
def exO : KPCAOracle := ⟨[3, 1], fun k => if k = 1 then exRecon1 else exMatrix⟩

/-- Concrete oracle whose full-rank fit keeps more eigenvalues than the
number of features (as KernelPCA does for nonlinear kernels). -/
def exO9 : KPCAOracle := ⟨[2, 1, 1], fun k => if k = 1 then exRecon1 else exMatrix⟩

/-- Pipeline state with out-of-range contamination 0.6. -/
def exCfg : KPCA_Recon_Error := ⟨exMatrix, 3 / 5, "rbf", none, 2018⟩

/-- Pipeline state with in-range contamination 0.5. -/
def exCfgA : KPCA_Recon_Error := ⟨exMatrix, 1 / 2, "rbf", none, 2018⟩

/-- Pipeline state with a single-feature matrix (two rows, one column). -/
def exCfg1 : KPCA_Recon_Error := ⟨[[1], [2]], 1 / 100, "rbf", none, 2018⟩

/-- Oracle for the single-feature matrix: one eigenvalue, exact
reconstruction (every shape assertion passes). -/
def exO1 : KPCAOracle := ⟨[2], fun _ => [[1], [2]]⟩

section ListLemmas

theorem getD_map_lt {α β : Type} (f : α → β) (l : List α) (k : ℕ) (da : α) (db : β)
    (hk : k < l.length) : (l.map f).getD k db = f (l.getD k da) := by
  have hm : k < (l.map f).length := by simpa using hk
  rw [List.getD_eq_getElem _ _ hm, List.getD_eq_getElem _ _ hk, List.getElem_map]

theorem getD_map_range {α : Type} (g : ℕ → α) (n k : ℕ) (d : α) (hk : k < n) :
    ((List.range n).map g).getD k d = g k := by
  have hr : k < (List.range n).length := by simpa using hk
  rw [getD_map_lt g _ k 0 d hr, List.getD_eq_getElem _ _ hr, List.getElem_range]

theorem getD_zipWith {α β γ : Type} (f : α → β → γ) (a : List α) (b : List β)
    (k : ℕ) (da : α) (db : β) (dc : γ) (hka : k < a.length) (hkb : k < b.length) :
    (List.zipWith f a b).getD k dc = f (a.getD k da) (b.getD k db) := by
  have hz : k < (List.zipWith f a b).length := by
    rw [List.length_zipWith]
    exact lt_min hka hkb
  rw [List.getD_eq_getElem _ _ hz, List.getD_eq_getElem _ _ hka,
    List.getD_eq_getElem _ _ hkb, List.getElem_zipWith]

theorem exists_of_mem_zipWith {α β γ : Type} {f : α → β → γ} :
    ∀ {a : List α} {b : List β} {c : γ}, c ∈ List.zipWith f a b →
      ∃ x y, x ∈ a ∧ y ∈ b ∧ c = f x y := by
  intro a
  induction a with
  | nil => intro b c hc; simp at hc
  | cons x xs ih =>
    intro b c hc
    cases b with
    | nil => simp at hc
    | cons y ys =>
      rw [List.zipWith_cons_cons, List.mem_cons] at hc
      rcases hc with hc | hc
      · exact ⟨x, y, List.mem_cons_self .., List.mem_cons_self .., hc⟩
      · rcases ih hc with ⟨x', y', hx', hy', hc'⟩
        exact ⟨x', y', List.mem_cons_of_mem _ hx', List.mem_cons_of_mem _ hy', hc'⟩

theorem zipWith_take_left {α β γ : Type} (f : α → β → γ) :
    ∀ (a : List α) (b : List β), List.zipWith f a b = List.zipWith f a (b.take a.length) := by
  intro a
  induction a with
  | nil => intro b; simp
  | cons x xs ih =>
    intro b
    cases b with
    | nil => simp
    | cons y ys => simp [List.zipWith_cons_cons, ih ys]

end ListLemmas

section CumsumLemmas

theorem cumsum_length (l : List ℚ) : (cumsum l).length = l.length := by
  induction l with
  | nil => rfl
  | cons x xs ih => simp [cumsum, ih]

theorem cumsum_getD (l : List ℚ) (k : ℕ) (hk : k < l.length) :
    (cumsum l).getD k 0 = (l.take (k + 1)).sum := by
  induction l generalizing k with
  | nil => simp at hk
  | cons x xs ih =>
    cases k with
    | zero => simp [cumsum]
    | succ k =>
      have hk' : k < xs.length := by simpa using hk
      have hc : k < (cumsum xs).length := by rw [cumsum_length]; exact hk'
      simp only [cumsum, List.getD_cons_succ, List.take_succ_cons, List.sum_cons]
      rw [getD_map_lt (fun y => x + y) _ k 0 0 hc, ih k hk']

theorem get_ev_ratio_length (o : KPCAOracle) :
    (KPCA_Recon_Error.get_ev_ratio o).length = o.lambdas.length := by
  simp [KPCA_Recon_Error.get_ev_ratio, cumsum_length]

theorem get_ev_ratio_getD (o : KPCAOracle) (k : ℕ) (hk : k < o.lambdas.length) :
    (KPCA_Recon_Error.get_ev_ratio o).getD k 0 =
      (o.lambdas.take (k + 1)).sum / o.lambdas.sum := by
  unfold KPCA_Recon_Error.get_ev_ratio
  have hc : k < (cumsum o.lambdas).length := by rw [cumsum_length]; exact hk
  rw [show (0 : ℚ) = 0 / o.lambdas.sum by simp]
  rw [getD_map_lt (fun x => x / o.lambdas.sum) _ k 0 _ hc]
  rw [cumsum_getD _ k (by rw [← cumsum_length o.lambdas]; exact hc)]

end CumsumLemmas

section ArgsortLemmas

theorem argInsert_perm (s : List ℝ) (i : ℕ) (l : List ℕ) :
    (argInsert s i l).Perm (i :: l) := by
  induction l with
  | nil => exact List.Perm.refl _
  | cons j rest ih =>
    unfold argInsert
    by_cases h : s.getD i 0 < s.getD j 0
    · rw [if_pos h]
    · rw [if_neg h]
      exact (ih.cons j).trans (List.Perm.swap i j rest)

theorem foldl_argInsert_perm (s : List ℝ) :
    ∀ (L acc : List ℕ),
      (L.foldl (fun a i => argInsert s i a) acc).Perm (L ++ acc) := by
  intro L
  induction L with
  | nil => intro acc; simp
  | cons x xs ih =>
    intro acc
    simp only [List.foldl_cons, List.cons_append]
    refine ((ih (argInsert s x acc)).trans ?_).trans List.perm_middle
    exact List.Perm.append_left xs (argInsert_perm s x acc)

theorem np_argsort_perm (s : List ℝ) : (np_argsort s).Perm (List.range s.length) := by
  simpa [np_argsort] using foldl_argInsert_perm s (List.range s.length) []

theorem np_argsort_length (s : List ℝ) : (np_argsort s).length = s.length := by
  simpa using (np_argsort_perm s).length_eq

theorem np_argsort_nodup (s : List ℝ) : (np_argsort s).Nodup := by
  exact ((np_argsort_perm s).symm.nodup_iff).mp (List.nodup_range s.length)

theorem np_argsort_mem_lt (s : List ℝ) (x : ℕ) (hx : x ∈ np_argsort s) : x < s.length := by
  have := (np_argsort_perm s).mem_iff.mp hx
  simpa using this

end ArgsortLemmas

section MapMLemmas

theorem mapM_ok_of_forall {α β : Type} (f : α → Except String β) (g : α → β) :
    ∀ L : List α, (∀ t ∈ L, f t = Except.ok (g t)) → L.mapM f = Except.ok (L.map g) := by
  intro L
  induction L with
  | nil => intro _; rfl
  | cons x xs ih =>
    intro h
    rw [List.mapM_cons, h x (List.mem_cons_self ..),
      ih (fun t ht => h t (List.mem_cons_of_mem _ ht))]
    rfl

theorem mapM_ok_forall {α β : Type} (f : α → Except String β) :
    ∀ (L : List α) (l : List β), L.mapM f = Except.ok l → ∀ t ∈ L, ∃ v, f t = Except.ok v := by
  intro L
  induction L with
  | nil => intro l _ t ht; simp at ht
  | cons x xs ih =>
    intro l hl t ht
    rw [List.mapM_cons] at hl
    cases hfx : f x with
    | error e => rw [hfx] at hl; simp [Bind.bind, Except.bind] at hl
    | ok v =>
      rw [hfx] at hl
      cases hxs : xs.mapM f with
      | error e =>
        rw [hxs] at hl
        simp only [bind, Except.bind] at hl
        cases hl
      | ok vs =>
        rcases List.mem_cons.mp ht with rfl | ht'
        · exact ⟨v, hfx⟩
        · exact ih vs hxs t ht'

end MapMLemmas

section ReconstructLemmas

theorem sameShape_length {a b : Mat} (h : sameShape a b) : a.length = b.length := by
  unfold sameShape at h
  simpa using congrArg List.length h

theorem reconList_length (cfg : KPCA_Recon_Error) (o : KPCAOracle) :
    (KPCA_Recon_Error.reconList cfg o).length = matWidth cfg.matrix := by
  simp [KPCA_Recon_Error.reconList]

theorem reconList_getD (cfg : KPCA_Recon_Error) (o : KPCAOracle) (k : ℕ)
    (hk : k < matWidth cfg.matrix) :
    (KPCA_Recon_Error.reconList cfg o).getD k [] = o.recon (k + 1) := by
  unfold KPCA_Recon_Error.reconList
  exact getD_map_range _ _ _ _ hk

theorem reconstruct_matrix_ok (cfg : KPCA_Recon_Error) (o : KPCAOracle) (i j : ℕ)
    (hcol : 2 ≤ matWidth cfg.matrix)
    (hsh : ∀ k, k < matWidth cfg.matrix → sameShape (o.recon (k + 1)) cfg.matrix)
    (hi : i < matWidth cfg.matrix) (hj : j < matWidth cfg.matrix)
    (hij : o.recon (i + 1) ≠ o.recon (j + 1)) :
    KPCA_Recon_Error.reconstruct_matrix cfg o i j =
      Except.ok (KPCA_Recon_Error.reconList cfg o) := by
  have hmap : (List.range (matWidth cfg.matrix)).mapM
      (fun t => KPCA_Recon_Error.reconstruct cfg o (t + 1)) =
      Except.ok (KPCA_Recon_Error.reconList cfg o) := by
    refine mapM_ok_of_forall _ (fun t => o.recon (t + 1)) _ ?_
    intro t ht
    unfold KPCA_Recon_Error.reconstruct
    rw [if_pos (hsh t (List.mem_range.mp ht))]
  unfold KPCA_Recon_Error.reconstruct_matrix
  rw [hmap]
  dsimp only
  rw [if_neg (by omega)]
  rw [if_neg]
  rw [reconList_getD cfg o i hi, reconList_getD cfg o j hj]
  exact hij

end ReconstructLemmas

section ScoreLemmas

theorem compute_sub_score_length (M m : Mat) (ev : ℚ) :
    (KPCA_Recon_Error.compute_sub_score M m ev).length = min M.length m.length := by
  simp [KPCA_Recon_Error.compute_sub_score]

theorem compute_sub_score_getD (M m : Mat) (ev : ℚ) (r : ℕ)
    (hr : r < M.length) (hm : r < m.length) :
    (KPCA_Recon_Error.compute_sub_score M m ev).getD r 0 =
      KPCA_Recon_Error.compute_vector_length
        (List.zipWith (fun a b => a - b) (M.getD r []) (m.getD r [])) * (ev : ℝ) := by
  unfold KPCA_Recon_Error.compute_sub_score
  have hz : r < (List.zipWith (fun r s => List.zipWith (fun a b => a - b) r s) M m).length := by
    rw [List.length_zipWith]
    exact lt_min hr hm
  rw [getD_map_lt (fun row => KPCA_Recon_Error.compute_vector_length row * (ev : ℝ)) _ r [] 0 hz]
  rw [getD_zipWith _ _ _ r [] [] [] hr hm]

theorem np_sum_axis0_length (n : ℕ) :
    ∀ L : List (List ℝ), L ≠ [] → (∀ v ∈ L, v.length = n) →
      (np_sum_axis0 L).length = n := by
  intro L
  induction L with
  | nil => intro h; exact absurd rfl h
  | cons v vs ih =>
    intro _ hv
    cases vs with
    | nil => simpa [np_sum_axis0] using hv v (List.mem_cons_self ..)
    | cons w ws =>
      rw [np_sum_axis0, List.length_zipWith,
        ih (by simp) (fun u hu => hv u (List.mem_cons_of_mem _ hu)),
        hv v (List.mem_cons_self ..), min_self]

theorem np_sum_axis0_getD (n k : ℕ) (hk : k < n) :
    ∀ L : List (List ℝ), (∀ v ∈ L, v.length = n) →
      (np_sum_axis0 L).getD k 0 = (L.map (fun v => v.getD k 0)).sum := by
  intro L
  induction L with
  | nil => simp [np_sum_axis0]
  | cons v vs ih =>
    intro hv
    cases vs with
    | nil => simp [np_sum_axis0]
    | cons w ws =>
      rw [np_sum_axis0]
      have h1 : k < v.length := by rw [hv v (List.mem_cons_self ..)]; exact hk
      have h2 : (np_sum_axis0 (w :: ws)).length = n :=
        np_sum_axis0_length n _ (by simp) (fun u hu => hv u (List.mem_cons_of_mem _ hu))
      rw [getD_zipWith _ _ _ k 0 0 0 h1 (by rw [h2]; exact hk)]
      rw [ih (fun u hu => hv u (List.mem_cons_of_mem _ hu))]
      simp

theorem sum_map_zipWith {α β : Type} (f : α → β → List ℝ) (g : List ℝ → ℝ)
    (dA : α) (dB : β) :
    ∀ (A : List α) (B : List β), A.length ≤ B.length →
      ((List.zipWith f A B).map g).sum =
        ∑ k ∈ Finset.range A.length, g (f (A.getD k dA) (B.getD k dB)) := by
  intro A
  induction A with
  | nil => simp
  | cons a as ih =>
    intro B hB
    cases B with
    | nil => simp at hB
    | cons b bs =>
      rw [List.zipWith_cons_cons, List.map_cons, List.sum_cons,
        ih bs (by simpa using hB), List.length_cons, Finset.sum_range_succ']
      simp only [List.getD_cons_succ, List.getD_cons_zero]
      exact add_comm _ _

theorem subscores_forall_length (cfg : KPCA_Recon_Error) (o : KPCAOracle)
    (hsh : ∀ k, k < matWidth cfg.matrix → sameShape (o.recon (k + 1)) cfg.matrix) :
    ∀ v ∈ List.zipWith (fun m ev => KPCA_Recon_Error.compute_sub_score cfg.matrix m ev)
      (KPCA_Recon_Error.reconList cfg o) (KPCA_Recon_Error.get_ev_ratio o),
      v.length = cfg.matrix.length := by
  intro v hv
  rcases exists_of_mem_zipWith hv with ⟨m, ev, hm, _, rfl⟩
  rcases List.mem_map.mp hm with ⟨t, ht, rfl⟩
  rw [compute_sub_score_length, sameShape_length (hsh t (List.mem_range.mp ht)), min_self]

theorem scoreVal_length (cfg : KPCA_Recon_Error) (o : KPCAOracle)
    (hcol : 1 ≤ matWidth cfg.matrix) (hlam : o.lambdas ≠ [])
    (hsh : ∀ k, k < matWidth cfg.matrix → sameShape (o.recon (k + 1)) cfg.matrix) :
    (KPCA_Recon_Error.scoreVal cfg o).length = cfg.matrix.length := by
  unfold KPCA_Recon_Error.scoreVal
  apply np_sum_axis0_length cfg.matrix.length _ _ (subscores_forall_length cfg o hsh)
  have hlen : (List.zipWith (fun m ev => KPCA_Recon_Error.compute_sub_score cfg.matrix m ev)
      (KPCA_Recon_Error.reconList cfg o) (KPCA_Recon_Error.get_ev_ratio o)).length =
      min (matWidth cfg.matrix) o.lambdas.length := by
    rw [List.length_zipWith, reconList_length, get_ev_ratio_length]
  intro hempty
  rw [hempty] at hlen
  have : 1 ≤ o.lambdas.length := List.length_pos.mpr hlam
  simp at hlen
  omega

theorem scoreVal_getD (cfg : KPCA_Recon_Error) (o : KPCAOracle)
    (hsh : ∀ k, k < matWidth cfg.matrix → sameShape (o.recon (k + 1)) cfg.matrix)
    (hev : matWidth cfg.matrix ≤ o.lambdas.length)
    (r : ℕ) (hr : r < cfg.matrix.length) :
    (KPCA_Recon_Error.scoreVal cfg o).getD r 0 =
      ∑ k ∈ Finset.range (matWidth cfg.matrix),
        KPCA_Recon_Error.compute_vector_length
          (List.zipWith (fun a b => a - b) (cfg.matrix.getD r []) ((o.recon (k + 1)).getD r []))
          * ((KPCA_Recon_Error.get_ev_ratio o).getD k 0 : ℝ) := by
  unfold KPCA_Recon_Error.scoreVal
  rw [np_sum_axis0_getD cfg.matrix.length r hr _ (subscores_forall_length cfg o hsh)]
  rw [sum_map_zipWith (fun m ev => KPCA_Recon_Error.compute_sub_score cfg.matrix m ev)
    (fun v => v.getD r 0) [] 0 (KPCA_Recon_Error.reconList cfg o)
    (KPCA_Recon_Error.get_ev_ratio o)
    (by rw [reconList_length, get_ev_ratio_length]; exact hev)]
  rw [reconList_length]
  apply Finset.sum_congr rfl
  intro k hk
  have hk' : k < matWidth cfg.matrix := Finset.mem_range.mp hk
  rw [reconList_getD cfg o k hk']
  exact compute_sub_score_getD cfg.matrix (o.recon (k + 1)) _ r hr
    (by rw [sameShape_length (hsh k hk')]; exact hr)

end ScoreLemmas

section PipelineLemmas

theorem get_anomaly_score_ok (cfg : KPCA_Recon_Error) (o : KPCAOracle) (i j : ℕ)
    (hcol : 2 ≤ matWidth cfg.matrix)
    (hsh : ∀ k, k < matWidth cfg.matrix → sameShape (o.recon (k + 1)) cfg.matrix)
    (hi : i < matWidth cfg.matrix) (hj : j < matWidth cfg.matrix)
    (hij : o.recon (i + 1) ≠ o.recon (j + 1)) :
    KPCA_Recon_Error.get_anomaly_score cfg o i j =
      Except.ok (KPCA_Recon_Error.scoreVal cfg o) := by
  unfold KPCA_Recon_Error.get_anomaly_score
  rw [reconstruct_matrix_ok cfg o i j hcol hsh hi hj hij]
  rfl

theorem get_anomaly_indices_ok (cfg : KPCA_Recon_Error) (o : KPCAOracle) (i j : ℕ)
    (hcol : 2 ≤ matWidth cfg.matrix)
    (hsh : ∀ k, k < matWidth cfg.matrix → sameShape (o.recon (k + 1)) cfg.matrix)
    (hi : i < matWidth cfg.matrix) (hj : j < matWidth cfg.matrix)
    (hij : o.recon (i + 1) ≠ o.recon (j + 1)) :
    KPCA_Recon_Error.get_anomaly_indices cfg o i j =
      Except.ok (KPCA_Recon_Error.indicesVal cfg o) := by
  unfold KPCA_Recon_Error.get_anomaly_indices
  rw [get_anomaly_score_ok cfg o i j hcol hsh hi hj hij]
  rfl

theorem predict_ok (cfg : KPCA_Recon_Error) (o : KPCAOracle) (i j : ℕ)
    (hcol : 2 ≤ matWidth cfg.matrix)
    (hsh : ∀ k, k < matWidth cfg.matrix → sameShape (o.recon (k + 1)) cfg.matrix)
    (hi : i < matWidth cfg.matrix) (hj : j < matWidth cfg.matrix)
    (hij : o.recon (i + 1) ≠ o.recon (j + 1)) :
    KPCA_Recon_Error.predict cfg o i j = Except.ok (KPCA_Recon_Error.predictVal cfg o) := by
  unfold KPCA_Recon_Error.predict
  rw [get_anomaly_indices_ok cfg o i j hcol hsh hi hj hij]
  rfl

end PipelineLemmas

section LabelerLemmas

theorem sliceTo_sublist (l : List ℕ) (m : ℤ) : List.Sublist (sliceTo l m) l := by
  unfold sliceTo
  split
  · exact List.take_sublist ..
  · exact List.take_sublist ..

theorem indicesVal_nodup (cfg : KPCA_Recon_Error) (o : KPCAOracle) :
    (KPCA_Recon_Error.indicesVal cfg o).Nodup :=
  List.Nodup.sublist (sliceTo_sublist ..) (np_argsort_nodup _)

theorem indicesVal_mem_lt (cfg : KPCA_Recon_Error) (o : KPCAOracle)
    (hcol : 1 ≤ matWidth cfg.matrix) (hlam : o.lambdas ≠ [])
    (hsh : ∀ k, k < matWidth cfg.matrix → sameShape (o.recon (k + 1)) cfg.matrix) :
    ∀ x ∈ KPCA_Recon_Error.indicesVal cfg o, x < cfg.matrix.length := by
  intro x hx
  have hx' : x ∈ np_argsort ((KPCA_Recon_Error.scoreVal cfg o).map (fun y => -y)) :=
    (sliceTo_sublist ..).mem hx
  have := np_argsort_mem_lt _ x hx'
  rwa [List.length_map, scoreVal_length cfg o hcol hlam hsh] at this

theorem indicesVal_length (cfg : KPCA_Recon_Error) (o : KPCAOracle)
    (hcol : 1 ≤ matWidth cfg.matrix) (hlam : o.lambdas ≠ [])
    (hsh : ∀ k, k < matWidth cfg.matrix → sameShape (o.recon (k + 1)) cfg.matrix)
    (hc : 0 ≤ cfg.contamination) :
    (KPCA_Recon_Error.indicesVal cfg o).length =
      min (⌈(cfg.matrix.length : ℚ) * cfg.contamination⌉.toNat) cfg.matrix.length := by
  unfold KPCA_Recon_Error.indicesVal sliceTo
  rw [if_pos (Int.ceil_nonneg (mul_nonneg (by positivity) hc))]
  rw [List.length_take, np_argsort_length, List.length_map,
    scoreVal_length cfg o hcol hlam hsh]

theorem count_zero_one (l : List ℕ) (h : ∀ x ∈ l, x = 0 ∨ x = 1) :
    l.count 0 + l.count 1 = l.length := by
  induction l with
  | nil => simp
  | cons x xs ih =>
    have ih' := ih (fun y hy => h y (List.mem_cons_of_mem _ hy))
    rcases h x (List.mem_cons_self ..) with rfl | rfl <;>
      simp [List.count_cons] <;> omega

theorem count_one_indicator (n : ℕ) (idx : List ℕ) (hn : idx.Nodup)
    (hb : ∀ x ∈ idx, x < n) :
    ((List.range n).map (fun t => if t ∈ idx then 1 else 0)).count 1 = idx.length := by
  rw [List.count_eq_countP, List.countP_map]
  rw [List.countP_congr (q := fun t => decide (t ∈ idx)) ?_]
  · rw [List.countP_eq_length_filter]
    have hft : ((List.range n).filter (fun t => decide (t ∈ idx))).Nodup :=
      List.Nodup.filter _ (List.nodup_range n)
    rw [← List.toFinset_card_of_nodup hft, ← List.toFinset_card_of_nodup hn]
    congr 1
    ext x
    simp only [List.mem_toFinset, List.mem_filter, List.mem_range, decide_eq_true_eq]
    exact ⟨fun hx => hx.2, fun hx => ⟨hb x hx, hx⟩⟩
  · intro t _
    by_cases h : t ∈ idx <;> simp [h]

end LabelerLemmas

section PredictLemmas

theorem predictVal_length (cfg : KPCA_Recon_Error) (o : KPCAOracle) :
    (KPCA_Recon_Error.predictVal cfg o).length = cfg.matrix.length := by
  simp [KPCA_Recon_Error.predictVal]

theorem predictVal_count_one (cfg : KPCA_Recon_Error) (o : KPCAOracle)
    (hcol : 1 ≤ matWidth cfg.matrix) (hlam : o.lambdas ≠ [])
    (hsh : ∀ k, k < matWidth cfg.matrix → sameShape (o.recon (k + 1)) cfg.matrix) :
    (KPCA_Recon_Error.predictVal cfg o).count 1 =
      (KPCA_Recon_Error.indicesVal cfg o).length :=
  count_one_indicator cfg.matrix.length _ (indicesVal_nodup cfg o)
    (indicesVal_mem_lt cfg o hcol hlam hsh)

theorem predictVal_zero_one (cfg : KPCA_Recon_Error) (o : KPCAOracle) :
    ∀ x ∈ KPCA_Recon_Error.predictVal cfg o, x = 0 ∨ x = 1 := by
  intro x hx
  rcases List.mem_map.mp hx with ⟨t, _, rfl⟩
  by_cases h : t ∈ KPCA_Recon_Error.indicesVal cfg o <;> simp [h]

theorem ceil_mul_le (n : ℕ) (c : ℚ) (_hc0 : 0 ≤ c) (hc : c ≤ 1 / 2) :
    (⌈(n : ℚ) * c⌉).toNat ≤ n := by
  have h1 : (n : ℚ) * c ≤ n := by
    have hn : (0 : ℚ) ≤ n := by positivity
    nlinarith
  have h2 : ⌈(n : ℚ) * c⌉ ≤ (n : ℤ) := Int.ceil_le.mpr (by exact_mod_cast h1)
  omega

end PredictLemmas

section EvRatioOrderLemmas

theorem sum_take_le (l : List ℚ) (hnn : ∀ x ∈ l, 0 ≤ x) {a b : ℕ} (hab : a ≤ b) :
    (l.take a).sum ≤ (l.take b).sum := by
  have h1 : l.take a = (l.take b).take a := by rw [List.take_take, min_eq_left hab]
  have h3 : 0 ≤ ((l.take b).drop a).sum := by
    apply List.sum_nonneg
    intro x hx
    exact hnn x (List.take_subset b l (List.drop_subset _ _ hx))
  calc (l.take a).sum = ((l.take b).take a).sum := by rw [← h1]
    _ ≤ ((l.take b).take a).sum + ((l.take b).drop a).sum := le_add_of_nonneg_right h3
    _ = (l.take b).sum := by rw [← List.sum_append, List.take_append_drop]

theorem get_ev_ratio_pairwise (o : KPCAOracle) (hnn : ∀ x ∈ o.lambdas, 0 ≤ x)
    (hsum : 0 < o.lambdas.sum) :
    List.Pairwise (fun a b => a ≤ b) (KPCA_Recon_Error.get_ev_ratio o) := by
  rw [← List.chain'_iff_pairwise]
  apply List.chain'_iff_get.mpr
  intro k hk
  have hlen := get_ev_ratio_length o
  have hk1 : k < o.lambdas.length := by omega
  have hk2 : k + 1 < o.lambdas.length := by omega
  rw [List.get_eq_getElem, List.get_eq_getElem,
    ← List.getD_eq_getElem (KPCA_Recon_Error.get_ev_ratio o) 0 (by omega),
    ← List.getD_eq_getElem (KPCA_Recon_Error.get_ev_ratio o) 0 (by omega),
    get_ev_ratio_getD o k hk1, get_ev_ratio_getD o (k + 1) hk2]
  gcongr
  exact sum_take_le o.lambdas hnn (by omega)

theorem get_ev_ratio_last (o : KPCAOracle) (hlam : o.lambdas ≠ [])
    (hsum : o.lambdas.sum ≠ 0) :
    (KPCA_Recon_Error.get_ev_ratio o).getD (o.lambdas.length - 1) 0 = 1 := by
  have hpos : 0 < o.lambdas.length := List.length_pos.mpr hlam
  rw [get_ev_ratio_getD o _ (by omega)]
  have he : o.lambdas.length - 1 + 1 = o.lambdas.length := by omega
  rw [he, List.take_length, div_self hsum]

end EvRatioOrderLemmas

/-- C2: for a valid configuration whose full-rank spectrum has exactly
`d = matWidth` non-negative eigenvalues with positive total (the spec's
model of the decomposition collaborator), `get_ev_ratio` returns a
vector of length `d`, monotonically non-decreasing, whose last entry is
exactly 1, with entry `k` equal to (sum of the top `k+1` eigenvalues) /
(sum of all eigenvalues). -/
theorem C2_ev_ratio_vector (cfg : KPCA_Recon_Error) (o : KPCAOracle)
    (hd : 1 ≤ matWidth cfg.matrix)
    (hlen : o.lambdas.length = matWidth cfg.matrix)
    (hnn : ∀ x ∈ o.lambdas, 0 ≤ x)
    (hsum : 0 < o.lambdas.sum) :
    (KPCA_Recon_Error.get_ev_ratio o).length = matWidth cfg.matrix ∧
    List.Pairwise (fun a b => a ≤ b) (KPCA_Recon_Error.get_ev_ratio o) ∧
    (KPCA_Recon_Error.get_ev_ratio o).getD (matWidth cfg.matrix - 1) 0 = 1 ∧
    ∀ k, k < matWidth cfg.matrix →
      (KPCA_Recon_Error.get_ev_ratio o).getD k 0 =
        (o.lambdas.take (k + 1)).sum / o.lambdas.sum := by
  have hlam : o.lambdas ≠ [] := by
    intro h
    rw [h] at hlen
    simp at hlen
    omega
  refine ⟨by rw [get_ev_ratio_length, hlen], get_ev_ratio_pairwise o hnn hsum, ?_, ?_⟩
  · rw [← hlen]
    exact get_ev_ratio_last o hlam (ne_of_gt hsum)
  · intro k hk
    exact get_ev_ratio_getD o k (by omega)

/-- C3: for a valid run with contamination in `[0, 0.5]`, `predict`
returns a length-n 0/1 vector with exactly `⌈n·c⌉` ones and `n − ⌈n·c⌉`
zeros; with contamination 0 it is the all-zero vector. -/
theorem C3_predict_counts (cfg : KPCA_Recon_Error) (o : KPCAOracle) (i j : ℕ)
    (hcol : 2 ≤ matWidth cfg.matrix)
    (hsh : ∀ k, k < matWidth cfg.matrix → sameShape (o.recon (k + 1)) cfg.matrix)
    (hi : i < matWidth cfg.matrix) (hj : j < matWidth cfg.matrix)
    (hij : o.recon (i + 1) ≠ o.recon (j + 1))
    (hlam : o.lambdas ≠ [])
    (hc0 : 0 ≤ cfg.contamination) (hchalf : cfg.contamination ≤ 1 / 2) :
    ∃ p, KPCA_Recon_Error.predict cfg o i j = Except.ok p ∧
      p.length = cfg.matrix.length ∧
      p.count 1 = (⌈(cfg.matrix.length : ℚ) * cfg.contamination⌉).toNat ∧
      p.count 0 =
        cfg.matrix.length - (⌈(cfg.matrix.length : ℚ) * cfg.contamination⌉).toNat ∧
      (cfg.contamination = 0 → p = List.replicate cfg.matrix.length 0) := by
  have hcol1 : 1 ≤ matWidth cfg.matrix := by omega
  have hA : (⌈(cfg.matrix.length : ℚ) * cfg.contamination⌉).toNat ≤ cfg.matrix.length :=
    ceil_mul_le cfg.matrix.length cfg.contamination hc0 hchalf
  have hcount1 : (KPCA_Recon_Error.predictVal cfg o).count 1 =
      (⌈(cfg.matrix.length : ℚ) * cfg.contamination⌉).toNat := by
    rw [predictVal_count_one cfg o hcol1 hlam hsh,
      indicesVal_length cfg o hcol1 hlam hsh hc0, min_eq_left hA]
  refine ⟨_, predict_ok cfg o i j hcol hsh hi hj hij, predictVal_length cfg o,
    hcount1, ?_, ?_⟩
  · have h01 := count_zero_one (KPCA_Recon_Error.predictVal cfg o)
      (predictVal_zero_one cfg o)
    rw [predictVal_length cfg o] at h01
    omega
  · intro h0
    unfold KPCA_Recon_Error.predictVal KPCA_Recon_Error.indicesVal
    rw [h0]
    norm_num [sliceTo]

/-- C1: for a valid run, the anomaly score of row `r` is the sum over
component counts `k = 1..d` of the Euclidean norm of row `r` of
(standardized matrix − k-component reconstruction), weighted by the
cumulative explained-variance ratio at `k` (the same scalar for every
row); `get_anomaly_score` returns this length-n vector. -/
theorem C1_anomaly_score_formula (cfg : KPCA_Recon_Error) (o : KPCAOracle) (i j : ℕ)
    (hcol : 2 ≤ matWidth cfg.matrix)
    (hsh : ∀ k, k < matWidth cfg.matrix → sameShape (o.recon (k + 1)) cfg.matrix)
    (hi : i < matWidth cfg.matrix) (hj : j < matWidth cfg.matrix)
    (hij : o.recon (i + 1) ≠ o.recon (j + 1))
    (hev : matWidth cfg.matrix ≤ o.lambdas.length) :
    ∃ s, KPCA_Recon_Error.get_anomaly_score cfg o i j = Except.ok s ∧
      s.length = cfg.matrix.length ∧
      ∀ r, r < cfg.matrix.length →
        s.getD r 0 = ∑ k ∈ Finset.range (matWidth cfg.matrix),
          KPCA_Recon_Error.compute_vector_length
            (List.zipWith (fun a b => a - b) (cfg.matrix.getD r [])
              ((o.recon (k + 1)).getD r []))
            * ((KPCA_Recon_Error.get_ev_ratio o).getD k 0 : ℝ) := by
  have hlam : o.lambdas ≠ [] := List.ne_nil_of_length_pos (by omega)
  refine ⟨_, get_anomaly_score_ok cfg o i j hcol hsh hi hj hij,
    scoreVal_length cfg o (by omega) hlam hsh, ?_⟩
  intro r hr
  exact scoreVal_getD cfg o hsh hev r hr

/-- C4 (amended): the pipeline performs no contamination validation: with
an out-of-range contamination rate (negative or above 0.5) no
configuration error is raised; the decomposition sweep runs and
prediction completes normally. -/
theorem C4_no_contamination_validation (cfg : KPCA_Recon_Error) (o : KPCAOracle) (i j : ℕ)
    (hcol : 2 ≤ matWidth cfg.matrix)
    (hsh : ∀ k, k < matWidth cfg.matrix → sameShape (o.recon (k + 1)) cfg.matrix)
    (hi : i < matWidth cfg.matrix) (hj : j < matWidth cfg.matrix)
    (hij : o.recon (i + 1) ≠ o.recon (j + 1))
    (_hout : cfg.contamination < 0 ∨ 1 / 2 < cfg.contamination) :
    ∃ p, KPCA_Recon_Error.predict cfg o i j = Except.ok p ∧
      p.length = cfg.matrix.length :=
  ⟨_, predict_ok cfg o i j hcol hsh hi hj hij, predictVal_length cfg o⟩

/-- C4 counterexample: with contamination 0.6 (outside `[0, 0.5]`) the
model raises no configuration error: the decomposition sweep is attempted
and succeeds, and prediction returns a result. -/
theorem C4_counterexample :
    (1 / 2 : ℚ) < exCfg.contamination ∧
    KPCA_Recon_Error.reconstruct_matrix exCfg exO 0 1 =
      Except.ok (KPCA_Recon_Error.reconList exCfg exO) ∧
    ∃ p, KPCA_Recon_Error.predict exCfg exO 0 1 = Except.ok p ∧
      p.length = exCfg.matrix.length := by
  refine ⟨by norm_num [exCfg], ?_, ?_⟩
  · exact reconstruct_matrix_ok exCfg exO 0 1 (by decide) (by decide) (by decide)
      (by decide) (by decide)
  · exact ⟨_, predict_ok exCfg exO 0 1 (by decide) (by decide) (by decide)
      (by decide) (by decide), predictVal_length exCfg exO⟩

/-- C6: for a valid run the sweep returns exactly `d = matWidth` matrices,
ordered by component count and each of the standardized matrix's shape;
and whenever some reconstruction's shape disagrees with the standardized
matrix, `reconstruct_matrix` ends in an assertion error instead of
returning a result. -/
theorem C6_reconstruction_sweep (cfg : KPCA_Recon_Error) (o : KPCAOracle) (i j : ℕ)
    (hcol : 2 ≤ matWidth cfg.matrix)
    (hsh : ∀ k, k < matWidth cfg.matrix → sameShape (o.recon (k + 1)) cfg.matrix)
    (hi : i < matWidth cfg.matrix) (hj : j < matWidth cfg.matrix)
    (hij : o.recon (i + 1) ≠ o.recon (j + 1)) :
    (∃ l, KPCA_Recon_Error.reconstruct_matrix cfg o i j = Except.ok l ∧
      l.length = matWidth cfg.matrix ∧
      ∀ k, k < matWidth cfg.matrix →
        l.getD k [] = o.recon (k + 1) ∧ sameShape (l.getD k []) cfg.matrix) ∧
    ∀ o' : KPCAOracle,
      (∃ k, k < matWidth cfg.matrix ∧ ¬ sameShape (o'.recon (k + 1)) cfg.matrix) →
      ∀ l, KPCA_Recon_Error.reconstruct_matrix cfg o' i j ≠ Except.ok l := by
  constructor
  · refine ⟨_, reconstruct_matrix_ok cfg o i j hcol hsh hi hj hij,
      reconList_length cfg o, ?_⟩
    intro k hk
    rw [reconList_getD cfg o k hk]
    exact ⟨rfl, hsh k hk⟩
  · intro o' hbad l hok
    rcases hbad with ⟨k, hk, hbad⟩
    unfold KPCA_Recon_Error.reconstruct_matrix at hok
    cases hmapeq : (List.range (matWidth cfg.matrix)).mapM
        (fun t => KPCA_Recon_Error.reconstruct cfg o' (t + 1)) with
    | error e => rw [hmapeq] at hok; exact absurd hok (by simp)
    | ok rm =>
      rcases mapM_ok_forall _ _ rm hmapeq k (List.mem_range.mpr hk) with ⟨v, hv⟩
      unfold KPCA_Recon_Error.reconstruct at hv
      rw [if_neg hbad] at hv
      cases hv

/-- C8: two complete runs with the same configuration, input and seed
(hence the same decomposition oracle), differing only in the pair of
indices drawn from numpy's global generator for the sanity check, produce
identical anomaly scores and identical predictions. -/
theorem C8_determinism (cfg : KPCA_Recon_Error) (o : KPCAOracle) (i j i' j' : ℕ)
    (hcol : 2 ≤ matWidth cfg.matrix)
    (hsh : ∀ k, k < matWidth cfg.matrix → sameShape (o.recon (k + 1)) cfg.matrix)
    (hi : i < matWidth cfg.matrix) (hj : j < matWidth cfg.matrix)
    (hij : o.recon (i + 1) ≠ o.recon (j + 1))
    (hi' : i' < matWidth cfg.matrix) (hj' : j' < matWidth cfg.matrix)
    (hij' : o.recon (i' + 1) ≠ o.recon (j' + 1)) :
    ∃ s p, KPCA_Recon_Error.get_anomaly_score cfg o i j = Except.ok s ∧
      KPCA_Recon_Error.get_anomaly_score cfg o i' j' = Except.ok s ∧
      KPCA_Recon_Error.predict cfg o i j = Except.ok p ∧
      KPCA_Recon_Error.predict cfg o i' j' = Except.ok p :=
  ⟨_, _, get_anomaly_score_ok cfg o i j hcol hsh hi hj hij,
    get_anomaly_score_ok cfg o i' j' hcol hsh hi' hj' hij',
    predict_ok cfg o i j hcol hsh hi hj hij,
    predict_ok cfg o i' j' hcol hsh hi' hj' hij'⟩

/-- C9: when the full-rank decomposition yields more eigenvalues than
features, the explained-variance-ratio vector is longer than the list of
`d` reconstruction matrices, and `get_anomaly_score` silently pairs the
`d` matrices with only the first `d` ratio entries, discarding the rest:
the element-wise pairing stops at the shorter sequence. -/
theorem C9_ev_ratio_truncation (cfg : KPCA_Recon_Error) (o : KPCAOracle) (i j : ℕ)
    (hcol : 2 ≤ matWidth cfg.matrix)
    (hsh : ∀ k, k < matWidth cfg.matrix → sameShape (o.recon (k + 1)) cfg.matrix)
    (hi : i < matWidth cfg.matrix) (hj : j < matWidth cfg.matrix)
    (hij : o.recon (i + 1) ≠ o.recon (j + 1))
    (_hlonger : matWidth cfg.matrix < (KPCA_Recon_Error.get_ev_ratio o).length) :
    KPCA_Recon_Error.get_anomaly_score cfg o i j =
      Except.ok (np_sum_axis0 (List.zipWith
        (fun m ev => KPCA_Recon_Error.compute_sub_score cfg.matrix m ev)
        (KPCA_Recon_Error.reconList cfg o)
        ((KPCA_Recon_Error.get_ev_ratio o).take (matWidth cfg.matrix)))) := by
  rw [get_anomaly_score_ok cfg o i j hcol hsh hi hj hij]
  unfold KPCA_Recon_Error.scoreVal
  rw [zipWith_take_left _ (KPCA_Recon_Error.reconList cfg o) (KPCA_Recon_Error.get_ev_ratio o),
    reconList_length]

/-- C10: for any contamination `c ≥ 0`, including values above 0.5,
`get_anomaly_indices` returns `min(⌈n·c⌉, n)` pairwise-distinct indices in
`0..n−1`, `predict` has exactly that many 1-entries, and no error is
raised for out-of-range `c`. -/
theorem C10_nonneg_contamination_counts (cfg : KPCA_Recon_Error) (o : KPCAOracle) (i j : ℕ)
    (hcol : 2 ≤ matWidth cfg.matrix)
    (hsh : ∀ k, k < matWidth cfg.matrix → sameShape (o.recon (k + 1)) cfg.matrix)
    (hi : i < matWidth cfg.matrix) (hj : j < matWidth cfg.matrix)
    (hij : o.recon (i + 1) ≠ o.recon (j + 1))
    (hlam : o.lambdas ≠ []) (hc : 0 ≤ cfg.contamination) :
    ∃ idx, KPCA_Recon_Error.get_anomaly_indices cfg o i j = Except.ok idx ∧
      idx.length =
        min (⌈(cfg.matrix.length : ℚ) * cfg.contamination⌉.toNat) cfg.matrix.length ∧
      idx.Nodup ∧ (∀ x ∈ idx, x < cfg.matrix.length) ∧
      ∃ p, KPCA_Recon_Error.predict cfg o i j = Except.ok p ∧
        p.length = cfg.matrix.length ∧
        p.count 1 =
          min (⌈(cfg.matrix.length : ℚ) * cfg.contamination⌉.toNat) cfg.matrix.length := by
  have hcol1 : 1 ≤ matWidth cfg.matrix := by omega
  refine ⟨_, get_anomaly_indices_ok cfg o i j hcol hsh hi hj hij,
    indicesVal_length cfg o hcol1 hlam hsh hc, indicesVal_nodup cfg o,
    indicesVal_mem_lt cfg o hcol1 hlam hsh, _,
    predict_ok cfg o i j hcol hsh hi hj hij, predictVal_length cfg o, ?_⟩
  rw [predictVal_count_one cfg o hcol1 hlam hsh,
    indicesVal_length cfg o hcol1 hlam hsh hc]

/-- C7: on a single-feature dataset (d = 1) the sweep does not succeed:
after the one reconstruction passes its shape assertion,
`np.random.choice(range(1), size=2, replace=False)` raises `ValueError`,
so `reconstruct_matrix` ends in an error instead of returning the single
matrix — while `get_ev_ratio` alone does return the length-1 vector `[1]`. -/
theorem C7_single_feature_value_error :
    matWidth exCfg1.matrix = 1 ∧
    KPCA_Recon_Error.reconstruct_matrix exCfg1 exO1 0 0 =
      Except.error "ValueError: cannot take a larger sample than population when replace is False" ∧
    KPCA_Recon_Error.get_ev_ratio exO1 = [1] := by
  refine ⟨rfl, ?_, ?_⟩
  · rfl
  · norm_num [KPCA_Recon_Error.get_ev_ratio, exO1, cumsum]

/-- Witness for C1 at the concrete configuration `exCfgA`, `exO`. -/
theorem C1_witness :
    ∃ s, KPCA_Recon_Error.get_anomaly_score exCfgA exO 0 1 = Except.ok s ∧
      s.length = exCfgA.matrix.length ∧
      ∀ r, r < exCfgA.matrix.length →
        s.getD r 0 = ∑ k ∈ Finset.range (matWidth exCfgA.matrix),
          KPCA_Recon_Error.compute_vector_length
            (List.zipWith (fun a b => a - b) (exCfgA.matrix.getD r [])
              ((exO.recon (k + 1)).getD r []))
            * ((KPCA_Recon_Error.get_ev_ratio exO).getD k 0 : ℝ) :=
  C1_anomaly_score_formula exCfgA exO 0 1 (by decide) (by decide) (by decide)
    (by decide) (by decide) (by decide)

/-- Witness for C2 at the concrete configuration `exCfgA`, `exO`. -/
theorem C2_witness :
    (KPCA_Recon_Error.get_ev_ratio exO).length = matWidth exCfgA.matrix ∧
    List.Pairwise (fun a b => a ≤ b) (KPCA_Recon_Error.get_ev_ratio exO) ∧
    (KPCA_Recon_Error.get_ev_ratio exO).getD (matWidth exCfgA.matrix - 1) 0 = 1 ∧
    ∀ k, k < matWidth exCfgA.matrix →
      (KPCA_Recon_Error.get_ev_ratio exO).getD k 0 =
        (exO.lambdas.take (k + 1)).sum / exO.lambdas.sum :=
  C2_ev_ratio_vector exCfgA exO (by decide) (by decide)
    (by norm_num [exO]) (by norm_num [exO])

/-- Witness for C3 at the concrete configuration `exCfgA`, `exO`. -/
theorem C3_witness :
    ∃ p, KPCA_Recon_Error.predict exCfgA exO 0 1 = Except.ok p ∧
      p.length = exCfgA.matrix.length ∧
      p.count 1 = (⌈(exCfgA.matrix.length : ℚ) * exCfgA.contamination⌉).toNat ∧
      p.count 0 =
        exCfgA.matrix.length -
          (⌈(exCfgA.matrix.length : ℚ) * exCfgA.contamination⌉).toNat ∧
      (exCfgA.contamination = 0 → p = List.replicate exCfgA.matrix.length 0) :=
  C3_predict_counts exCfgA exO 0 1 (by decide) (by decide) (by decide) (by decide)
    (by decide) (by decide) (by norm_num [exCfgA]) (by norm_num [exCfgA])

/-- Witness for the amended C4 at the concrete configuration `exCfg`
(contamination 0.6). -/
theorem C4_witness :
    ∃ p, KPCA_Recon_Error.predict exCfg exO 0 1 = Except.ok p ∧
      p.length = exCfg.matrix.length :=
  C4_no_contamination_validation exCfg exO 0 1 (by decide) (by decide) (by decide)
    (by decide) (by decide) (Or.inr (by norm_num [exCfg]))

/-- Witness for C6 at the concrete configuration `exCfgA`, `exO`. -/
theorem C6_witness :
    (∃ l, KPCA_Recon_Error.reconstruct_matrix exCfgA exO 0 1 = Except.ok l ∧
      l.length = matWidth exCfgA.matrix ∧
      ∀ k, k < matWidth exCfgA.matrix →
        l.getD k [] = exO.recon (k + 1) ∧ sameShape (l.getD k []) exCfgA.matrix) ∧
    ∀ o' : KPCAOracle,
      (∃ k, k < matWidth exCfgA.matrix ∧ ¬ sameShape (o'.recon (k + 1)) exCfgA.matrix) →
      ∀ l, KPCA_Recon_Error.reconstruct_matrix exCfgA o' 0 1 ≠ Except.ok l :=
  C6_reconstruction_sweep exCfgA exO 0 1 (by decide) (by decide) (by decide)
    (by decide) (by decide)

/-- Witness for C8: two runs at `exCfgA`, `exO` with the two possible
global-generator draws (0,1) and (1,0) return the same scores and the
same predictions. -/
theorem C8_witness :
    ∃ s p, KPCA_Recon_Error.get_anomaly_score exCfgA exO 0 1 = Except.ok s ∧
      KPCA_Recon_Error.get_anomaly_score exCfgA exO 1 0 = Except.ok s ∧
      KPCA_Recon_Error.predict exCfgA exO 0 1 = Except.ok p ∧
      KPCA_Recon_Error.predict exCfgA exO 1 0 = Except.ok p :=
  C8_determinism exCfgA exO 0 1 1 0 (by decide) (by decide) (by decide) (by decide)
    (by decide) (by decide) (by decide) (by decide)

/-- Witness for C9 at `exCfgA` with the oracle `exO9`, whose spectrum has
three eigenvalues while the matrix has two features. -/
theorem C9_witness :
    KPCA_Recon_Error.get_anomaly_score exCfgA exO9 0 1 =
      Except.ok (np_sum_axis0 (List.zipWith
        (fun m ev => KPCA_Recon_Error.compute_sub_score exCfgA.matrix m ev)
        (KPCA_Recon_Error.reconList exCfgA exO9)
        ((KPCA_Recon_Error.get_ev_ratio exO9).take (matWidth exCfgA.matrix)))) :=
  C9_ev_ratio_truncation exCfgA exO9 0 1 (by decide) (by decide) (by decide)
    (by decide) (by decide) (by decide)

/-- Witness for C10 at the concrete configuration `exCfg`, whose
contamination 0.6 lies outside `[0, 0.5]`. -/
theorem C10_witness :
    ∃ idx, KPCA_Recon_Error.get_anomaly_indices exCfg exO 0 1 = Except.ok idx ∧
      idx.length =
        min (⌈(exCfg.matrix.length : ℚ) * exCfg.contamination⌉.toNat)
          exCfg.matrix.length ∧
      idx.Nodup ∧ (∀ x ∈ idx, x < exCfg.matrix.length) ∧
      ∃ p, KPCA_Recon_Error.predict exCfg exO 0 1 = Except.ok p ∧
        p.length = exCfg.matrix.length ∧
        p.count 1 =
          min (⌈(exCfg.matrix.length : ℚ) * exCfg.contamination⌉.toNat)
            exCfg.matrix.length :=
  C10_nonneg_contamination_counts exCfg exO 0 1 (by decide) (by decide) (by decide)
    (by decide) (by decide) (by decide) (by norm_num [exCfg])
